import Mathlib

/-
Verification of the split_preserve library (src/lib.rs): a lazy tokenizer that
splits a string into alternating whitespace / non-whitespace runs without
discarding any character.  Strings are modelled as List Char, the iterator
state as the Rust struct SplitPreserveWS holding an Option Token, and one
Iterator::next call as a pure state-passing step.
-/

/-- Whitespace predicate of the splitter, modelling Rust's char::is_whitespace. -/
def isWS (c : Char) : Bool := c.isWhitespace

/-- The token returned by the SplitPreserveWS iterator: a whitespace run or a
non-whitespace run, carrying its text. -/
inductive Token where
  | Whitespace : List Char → Token
  | Other : List Char → Token
deriving DecidableEq

/-- The text carried by a token. -/
def Token.text : Token → List Char
  | Token.Whitespace s => s
  | Token.Other s => s

/-- Class tag of a token: true for Whitespace, false for Other. -/
def Token.classWS : Token → Bool
  | Token.Whitespace _ => true
  | Token.Other _ => false

/-- Rust str::starts_with for a character predicate: the first character exists
and satisfies p. -/
def startsWith (p : Char → Bool) : List Char → Bool
  | [] => false
  | c :: _ => p c

/-- Rust's s.find(p) followed by s.split_at(i): split s at the first character
satisfying p into (prefix before it, suffix from it on), or none when no
character of s satisfies p. -/
def findSplit (p : Char → Bool) : List Char → Option (List Char × List Char)
  | [] => none
  | c :: cs =>
    if p c then some ([], c :: cs)
    else
      match findSplit p cs with
      | some (a, b) => some (c :: a, b)
      | none => none

/-- The iterator: its only field is the pending remainder of the input, tagged
with the class of its first character, or none when exhausted. -/
structure SplitPreserveWS where
  string : Option Token
deriving DecidableEq

/-- SplitPreserveWS::new. -/
def SplitPreserveWS.new (s : List Char) : SplitPreserveWS :=
  if s.isEmpty then ⟨none⟩
  else if startsWith isWS s then ⟨some (Token.Whitespace s)⟩
  else ⟨some (Token.Other s)⟩

/-- One Iterator::next call on SplitPreserveWS: the emitted token (or none)
together with the iterator state after the call. -/
def SplitPreserveWS.next (it : SplitPreserveWS) : Option Token × SplitPreserveWS :=
  match it.string with
  | none => (none, ⟨none⟩)
  | some (Token.Whitespace s) =>
    match findSplit (fun c => !isWS c) s with
    | some (a, b) => (some (Token.Whitespace a), ⟨some (Token.Other b)⟩)
    | none => (some (Token.Whitespace s), ⟨none⟩)
  | some (Token.Other s) =>
    match findSplit isWS s with
    | some (a, b) => (some (Token.Other a), ⟨some (Token.Whitespace b)⟩)
    | none => (some (Token.Other s), ⟨none⟩)

/-- Text of the pending state (empty when exhausted). -/
def SplitPreserveWS.text (it : SplitPreserveWS) : List Char :=
  match it.string with
  | none => []
  | some t => t.text

/-- The states the iterator can actually reach: exhausted, or a non-empty
pending token whose first character matches its class tag. -/
def SplitPreserveWS.WF (it : SplitPreserveWS) : Bool :=
  match it.string with
  | none => true
  | some (Token.Whitespace s) => startsWith isWS s
  | some (Token.Other s) => startsWith (fun c => !isWS c) s

/-- Drive the iterator: collect the tokens emitted by repeated next calls,
with fuel bounding the number of calls. -/
def SplitPreserveWS.run : Nat → SplitPreserveWS → List Token
  | 0, _ => []
  | fuel + 1, it =>
    match it.next with
    | (none, _) => []
    | (some tok, rest) => tok :: SplitPreserveWS.run fuel rest

/-- All tokens the iterator produces from input s.  Every emitted token holds
at least one character, so s.length next calls always reach exhaustion. -/
def SplitPreserveWS.tokens (s : List Char) : List Token :=
  SplitPreserveWS.run s.length (SplitPreserveWS.new s)

/-- map_words: rewrite the text of Other tokens with f, pass Whitespace
tokens through unchanged. -/
def map_words (f : List Char → List Char) (s : List Char) : List (List Char) :=
  (SplitPreserveWS.tokens s).map fun t =>
    match t with
    | Token.Other u => f u
    | Token.Whitespace u => u

/-- map_whitespace: rewrite the text of Whitespace tokens with f, pass Other
tokens through unchanged. -/
def map_whitespace (f : List Char → List Char) (s : List Char) : List (List Char) :=
  (SplitPreserveWS.tokens s).map fun t =>
    match t with
    | Token.Other u => u
    | Token.Whitespace u => f u

/-- A token is homogeneous when every character of its text matches its class. -/
def homog : Token → Bool
  | Token.Whitespace u => u.all isWS
  | Token.Other u => u.all fun c => !isWS c

theorem findSplit_append {p : Char → Bool} {s a b : List Char}
    (h : findSplit p s = some (a, b)) : a ++ b = s := by
  induction s generalizing a b with
  | nil => simp [findSplit] at h
  | cons c cs ih =>
    rw [findSplit] at h
    by_cases hp : p c
    · simp [hp] at h
      obtain ⟨rfl, rfl⟩ := h
      simp
    · simp [hp] at h
      cases hfs : findSplit p cs with
      | none => rw [hfs] at h; simp at h
      | some ab =>
        obtain ⟨a1, b1⟩ := ab
        rw [hfs] at h
        simp at h
        obtain ⟨rfl, rfl⟩ := h
        simpa using ih hfs

theorem findSplit_prefix {p : Char → Bool} {s a b : List Char}
    (h : findSplit p s = some (a, b)) : a.all (fun c => !p c) = true := by
  induction s generalizing a b with
  | nil => simp [findSplit] at h
  | cons c cs ih =>
    rw [findSplit] at h
    by_cases hp : p c
    · simp [hp] at h
      obtain ⟨rfl, rfl⟩ := h
      simp
    · simp [hp] at h
      cases hfs : findSplit p cs with
      | none => rw [hfs] at h; simp at h
      | some ab =>
        obtain ⟨a1, b1⟩ := ab
        rw [hfs] at h
        simp at h
        obtain ⟨rfl, rfl⟩ := h
        simp [List.all_cons, hp, ih hfs]

theorem findSplit_suffix {p : Char → Bool} {s a b : List Char}
    (h : findSplit p s = some (a, b)) : ∃ d ds, b = d :: ds ∧ p d = true := by
  induction s generalizing a b with
  | nil => simp [findSplit] at h
  | cons c cs ih =>
    rw [findSplit] at h
    by_cases hp : p c
    · simp [hp] at h
      obtain ⟨rfl, rfl⟩ := h
      exact ⟨c, cs, rfl, hp⟩
    · simp [hp] at h
      cases hfs : findSplit p cs with
      | none => rw [hfs] at h; simp at h
      | some ab =>
        obtain ⟨a1, b1⟩ := ab
        rw [hfs] at h
        simp at h
        obtain ⟨rfl, rfl⟩ := h
        exact ih hfs

theorem findSplit_none {p : Char → Bool} {s : List Char}
    (h : findSplit p s = none) : s.all (fun c => !p c) = true := by
  induction s with
  | nil => simp
  | cons c cs ih =>
    rw [findSplit] at h
    by_cases hp : p c
    · simp [hp] at h
    · simp [hp] at h
      cases hfs : findSplit p cs with
      | none => simp [List.all_cons, hp, ih hfs]
      | some ab => rw [hfs] at h; simp at h

theorem startsWith_iff {p : Char → Bool} {s : List Char} :
    startsWith p s = true ↔ ∃ c cs, s = c :: cs ∧ p c = true := by
  cases s with
  | nil => simp [startsWith]
  | cons c cs =>
    simp only [startsWith]
    constructor
    · intro h; exact ⟨c, cs, rfl, h⟩
    · rintro ⟨d, ds, heq, hd⟩
      cases heq
      exact hd

theorem next_spec {it : SplitPreserveWS} {t : Token}
    (hwf : it.WF = true) (hst : it.string = some t) :
    ∃ tok rest, it.next = (some tok, rest) ∧ tok.classWS = t.classWS ∧
      tok.text ≠ [] ∧ homog tok = true ∧ tok.text ++ rest.text = t.text ∧
      rest.WF = true ∧ rest.text.length < t.text.length ∧
      ∀ u, rest.string = some u → u.classWS = !t.classWS := by
  cases t with
  | Whitespace s =>
    have hws : startsWith isWS s = true := by
      have h := hwf
      simp only [SplitPreserveWS.WF, hst] at h
      exact h
    obtain ⟨c, cs, rfl, hc⟩ := startsWith_iff.mp hws
    cases hfs : findSplit (fun x => !isWS x) (c :: cs) with
    | some ab =>
      obtain ⟨a, b⟩ := ab
      obtain ⟨d, ds, rfl, hd⟩ := findSplit_suffix hfs
      have hab : a ++ d :: ds = c :: cs := findSplit_append hfs
      have hane : a ≠ [] := by
        intro h
        subst h
        simp only [List.nil_append, List.cons.injEq] at hab
        rw [hab.1, hc] at hd
        simp at hd
      have hlen : 0 < a.length := List.length_pos.mpr hane
      have hlens := congrArg List.length hab
      simp only [List.length_append] at hlens
      refine ⟨Token.Whitespace a, ⟨some (Token.Other (d :: ds))⟩, ?_, rfl, ?_, ?_, ?_, ?_, ?_, ?_⟩
      · simp only [SplitPreserveWS.next, hst, hfs]
      · simpa [Token.text] using hane
      · have h := findSplit_prefix hfs
        simp only [Bool.not_not] at h
        simpa [homog] using h
      · simpa [Token.text, SplitPreserveWS.text] using hab
      · have hd2 : isWS d = false := by simpa using hd
        simp [SplitPreserveWS.WF, startsWith, hd2]
      · simp only [SplitPreserveWS.text, Token.text]
        omega
      · intro u hu
        simp only [Option.some.injEq] at hu
        subst hu
        rfl
    | none =>
      refine ⟨Token.Whitespace (c :: cs), ⟨none⟩, ?_, rfl, ?_, ?_, ?_, ?_, ?_, ?_⟩
      · simp only [SplitPreserveWS.next, hst, hfs]
      · simp [Token.text]
      · have h := findSplit_none hfs
        simp only [Bool.not_not] at h
        simpa [homog] using h
      · simp [Token.text, SplitPreserveWS.text]
      · rfl
      · simp [SplitPreserveWS.text, Token.text]
      · intro u hu
        simp at hu
  | Other s =>
    have hws : startsWith (fun x => !isWS x) s = true := by
      have h := hwf
      simp only [SplitPreserveWS.WF, hst] at h
      exact h
    obtain ⟨c, cs, rfl, hc⟩ := startsWith_iff.mp hws
    cases hfs : findSplit isWS (c :: cs) with
    | some ab =>
      obtain ⟨a, b⟩ := ab
      obtain ⟨d, ds, rfl, hd⟩ := findSplit_suffix hfs
      have hab : a ++ d :: ds = c :: cs := findSplit_append hfs
      have hane : a ≠ [] := by
        intro h
        subst h
        simp only [List.nil_append, List.cons.injEq] at hab
        rw [← hab.1, hd] at hc
        simp at hc
      have hlen : 0 < a.length := List.length_pos.mpr hane
      have hlens := congrArg List.length hab
      simp only [List.length_append] at hlens
      refine ⟨Token.Other a, ⟨some (Token.Whitespace (d :: ds))⟩, ?_, rfl, ?_, ?_, ?_, ?_, ?_, ?_⟩
      · simp only [SplitPreserveWS.next, hst, hfs]
      · simpa [Token.text] using hane
      · have h := findSplit_prefix hfs
        simpa [homog] using h
      · simpa [Token.text, SplitPreserveWS.text] using hab
      · simp [SplitPreserveWS.WF, startsWith, hd]
      · simp only [SplitPreserveWS.text, Token.text]
        omega
      · intro u hu
        simp only [Option.some.injEq] at hu
        subst hu
        rfl
    | none =>
      refine ⟨Token.Other (c :: cs), ⟨none⟩, ?_, rfl, ?_, ?_, ?_, ?_, ?_, ?_⟩
      · simp only [SplitPreserveWS.next, hst, hfs]
      · simp [Token.text]
      · have h := findSplit_none hfs
        simpa [homog] using h
      · simp [Token.text, SplitPreserveWS.text]
      · rfl
      · simp [SplitPreserveWS.text, Token.text]
      · intro u hu
        simp at hu

theorem next_of_none {it : SplitPreserveWS} (hst : it.string = none) :
    it.next = (none, ⟨none⟩) := by
  simp [SplitPreserveWS.next, hst]

theorem run_of_none {fuel : Nat} {it : SplitPreserveWS} (hst : it.string = none) :
    SplitPreserveWS.run fuel it = [] := by
  cases fuel with
  | zero => rfl
  | succ n => simp [SplitPreserveWS.run, next_of_none hst]

theorem run_succ_of_next {n : Nat} {it rest : SplitPreserveWS} {tok : Token}
    (hnext : it.next = (some tok, rest)) :
    SplitPreserveWS.run (n + 1) it = tok :: SplitPreserveWS.run n rest := by
  simp only [SplitPreserveWS.run, hnext]

theorem text_eq_of_string {it : SplitPreserveWS} {t : Token}
    (hst : it.string = some t) : it.text = t.text := by
  simp [SplitPreserveWS.text, hst]

theorem run_join {fuel : Nat} {it : SplitPreserveWS} (hwf : it.WF = true)
    (hfuel : it.text.length ≤ fuel) :
    ((SplitPreserveWS.run fuel it).map Token.text).flatten = it.text := by
  induction fuel generalizing it with
  | zero =>
    have h : it.text = [] := List.eq_nil_of_length_eq_zero (Nat.le_zero.mp hfuel)
    simp [SplitPreserveWS.run, h]
  | succ n ih =>
    cases hst : it.string with
    | none =>
      rw [run_of_none hst]
      simp [SplitPreserveWS.text, hst]
    | some u =>
      obtain ⟨tok, rest, hnext, hclass, hne, hhom, happ, hwfr, hlt, hopp⟩ := next_spec hwf hst
      have htext : it.text = u.text := text_eq_of_string hst
      have hlen : u.text.length ≤ n + 1 := by rw [← htext]; exact hfuel
      have hrest : rest.text.length ≤ n := by omega
      rw [run_succ_of_next hnext]
      simp only [List.map_cons, List.flatten_cons, ih hwfr hrest]
      rw [happ, htext]

theorem run_mem {fuel : Nat} {it : SplitPreserveWS} (hwf : it.WF = true)
    {t : Token} (hmem : t ∈ SplitPreserveWS.run fuel it) :
    t.text ≠ [] ∧ homog t = true := by
  induction fuel generalizing it with
  | zero => simp [SplitPreserveWS.run] at hmem
  | succ n ih =>
    cases hst : it.string with
    | none =>
      rw [run_of_none hst] at hmem
      simp at hmem
    | some u =>
      obtain ⟨tok, rest, hnext, hclass, hne, hhom, happ, hwfr, hlt, hopp⟩ := next_spec hwf hst
      rw [run_succ_of_next hnext] at hmem
      rcases List.mem_cons.mp hmem with rfl | hmem2
      · exact ⟨hne, hhom⟩
      · exact ih hwfr hmem2

theorem run_alt {fuel : Nat} {it : SplitPreserveWS} (hwf : it.WF = true) :
    List.Chain' (fun a b => a.classWS ≠ b.classWS) (SplitPreserveWS.run fuel it) ∧
    ∀ t, it.string = some t →
      ∀ t0 ∈ (SplitPreserveWS.run fuel it).head?, t0.classWS = t.classWS := by
  induction fuel generalizing it with
  | zero => simp [SplitPreserveWS.run]
  | succ n ih =>
    cases hst : it.string with
    | none =>
      rw [run_of_none hst]
      simp
    | some u =>
      obtain ⟨tok, rest, hnext, hclass, hne, hhom, happ, hwfr, hlt, hopp⟩ := next_spec hwf hst
      rw [run_succ_of_next hnext]
      obtain ⟨ihchain, ihhead⟩ := ih hwfr
      constructor
      · rw [List.chain'_cons']
        refine ⟨?_, ihchain⟩
        intro y hy
        cases hr : rest.string with
        | none =>
          rw [run_of_none hr] at hy
          simp at hy
        | some v =>
          have hyv : y.classWS = v.classWS := ihhead v hr y hy
          have hv : v.classWS = !u.classWS := hopp v hr
          rw [hclass, hyv, hv]
          cases u.classWS <;> simp
      · intro t ht t0 ht0
        have hut : u = t := Option.some.inj ht
        simp only [List.head?_cons, Option.mem_def, Option.some.injEq] at ht0
        rw [← ht0, hclass, hut]

theorem run_len {fuel : Nat} {it : SplitPreserveWS} (hwf : it.WF = true) :
    (SplitPreserveWS.run fuel it).length ≤ it.text.length := by
  induction fuel generalizing it with
  | zero => simp [SplitPreserveWS.run]
  | succ n ih =>
    cases hst : it.string with
    | none =>
      rw [run_of_none hst]
      simp
    | some u =>
      obtain ⟨tok, rest, hnext, hclass, hne, hhom, happ, hwfr, hlt, hopp⟩ := next_spec hwf hst
      rw [run_succ_of_next hnext]
      have h1 := ih hwfr
      have h2 : it.text.length = u.text.length := by rw [text_eq_of_string hst]
      simp only [List.length_cons]
      omega

theorem new_WF (s : List Char) : (SplitPreserveWS.new s).WF = true := by
  cases s with
  | nil => rfl
  | cons c cs =>
    simp only [SplitPreserveWS.new, List.isEmpty_cons, Bool.false_eq_true, if_false]
    by_cases h : startsWith isWS (c :: cs) = true
    · simp [h, SplitPreserveWS.WF]
    · simp only [startsWith, Bool.not_eq_true] at h
      simp [startsWith, h, SplitPreserveWS.WF]

theorem new_text (s : List Char) : (SplitPreserveWS.new s).text = s := by
  cases s with
  | nil => rfl
  | cons c cs =>
    simp only [SplitPreserveWS.new, List.isEmpty_cons, Bool.false_eq_true, if_false]
    by_cases h : startsWith isWS (c :: cs) = true <;>
      simp [h, SplitPreserveWS.text, Token.text]

theorem tokens_join (s : List Char) :
    ((SplitPreserveWS.tokens s).map Token.text).flatten = s := by
  have h := @run_join s.length (SplitPreserveWS.new s) (new_WF s) (by rw [new_text])
  rw [SplitPreserveWS.tokens, h, new_text]

theorem tokens_mem {s : List Char} {t : Token} (hmem : t ∈ SplitPreserveWS.tokens s) :
    t.text ≠ [] ∧ homog t = true :=
  run_mem (new_WF s) hmem

theorem tokens_alt (s : List Char) :
    List.Chain' (fun a b => a.classWS ≠ b.classWS) (SplitPreserveWS.tokens s) :=
  (run_alt (new_WF s)).1

theorem homog_chars {t : Token} (h : homog t = true) {c : Char} (hc : c ∈ t.text) :
    isWS c = t.classWS := by
  cases t with
  | Whitespace u =>
    simp only [homog, List.all_eq_true] at h
    simp only [Token.text] at hc
    simp only [Token.classWS]
    exact h c hc
  | Other u =>
    simp only [homog, List.all_eq_true] at h
    simp only [Token.text] at hc
    simp only [Token.classWS]
    simpa using h c hc

theorem append_getElem_len {α : Type} {pre suf s : List α} (h : pre ++ suf = s) :
    s[pre.length]? = suf[0]? := by
  rw [← h, List.getElem?_append_right (Nat.le_refl _), Nat.sub_self]

/-- C1: concatenating the text of every token produced by iterating
SplitPreserveWS.new s to exhaustion, in emission order, yields exactly s. -/
theorem C1_round_trip (s : List Char) :
    ((SplitPreserveWS.tokens s).map Token.text).flatten = s :=
  tokens_join s

/-- C2: in the token sequence emitted from any input, no two consecutive tokens
have the same variant. -/
theorem C2_alternation (s : List Char) :
    List.Chain' (fun a b => a.classWS ≠ b.classWS) (SplitPreserveWS.tokens s) :=
  tokens_alt s

/-- C3: for every emitted token, a Whitespace token's text consists only of
characters satisfying the whitespace predicate and an Other token's text contains
no such character. -/
theorem C3_class_purity (s : List Char) (t : Token)
    (ht : t ∈ SplitPreserveWS.tokens s) :
    (∀ u, t = Token.Whitespace u → ∀ c ∈ u, isWS c = true) ∧
    (∀ u, t = Token.Other u → ∀ c ∈ u, isWS c = false) := by
  have h := (tokens_mem ht).2
  constructor
  · rintro u rfl c hc
    have hcm : c ∈ (Token.Whitespace u).text := by simpa [Token.text] using hc
    have := homog_chars h hcm
    simpa [Token.classWS] using this
  · rintro u rfl c hc
    have hcm : c ∈ (Token.Other u).text := by simpa [Token.text] using hc
    have := homog_chars h hcm
    simpa [Token.classWS] using this

theorem C3_class_purity_witness :
    Token.Whitespace [' '] ∈ SplitPreserveWS.tokens "a ".toList ∧ isWS ' ' = true :=
  ⟨by decide,
    (C3_class_purity "a ".toList (Token.Whitespace [' ']) (by decide)).1
      [' '] rfl ' ' (List.mem_cons_self ' ' [])⟩

/-- C5: new on the empty string is the exhausted iterator and produces zero tokens;
on a non-empty string the whole input becomes the pending token, tagged Whitespace
exactly when the first character satisfies the whitespace predicate and Other
otherwise. -/
theorem C5_new_spec (c : Char) (cs : List Char) :
    SplitPreserveWS.new [] = ⟨none⟩ ∧
    SplitPreserveWS.tokens [] = [] ∧
    SplitPreserveWS.new (c :: cs) =
      (if isWS c then ⟨some (Token.Whitespace (c :: cs))⟩
       else ⟨some (Token.Other (c :: cs))⟩) := by
  refine ⟨rfl, rfl, ?_⟩
  simp only [SplitPreserveWS.new, List.isEmpty_cons, Bool.false_eq_true, if_false, startsWith]

/-- C6: mapping with the identity transform, through map_words or through
map_whitespace, concatenates back to the original input. -/
theorem C6_identity (s : List Char) :
    (map_words id s).flatten = s ∧ (map_whitespace id s).flatten = s := by
  have h1 : map_words id s = (SplitPreserveWS.tokens s).map Token.text := by
    rw [map_words]
    apply List.map_congr_left
    intro t _
    cases t <;> rfl
  have h2 : map_whitespace id s = (SplitPreserveWS.tokens s).map Token.text := by
    rw [map_whitespace]
    apply List.map_congr_left
    intro t _
    cases t <;> rfl
  rw [h1, h2]
  exact ⟨tokens_join s, tokens_join s⟩

/-- C4: each emitted token is maximal: the token either ends at the end of the
input, or the input character immediately after its text has a class different
from the token's. -/
theorem C4_maximality (s : List Char) (i : Nat) (t : Token)
    (ht : (SplitPreserveWS.tokens s)[i]? = some t) :
    (((SplitPreserveWS.tokens s).take (i + 1)).map Token.text).flatten.length = s.length ∨
    ∃ c, s[(((SplitPreserveWS.tokens s).take (i + 1)).map Token.text).flatten.length]?
        = some c ∧ isWS c ≠ t.classWS := by
  have hsplit : (((SplitPreserveWS.tokens s).take (i + 1)).map Token.text).flatten ++
      (((SplitPreserveWS.tokens s).drop (i + 1)).map Token.text).flatten = s := by
    rw [← List.flatten_append, ← List.map_append, List.take_append_drop]
    exact tokens_join s
  cases hdrop : (SplitPreserveWS.tokens s).drop (i + 1) with
  | nil =>
    left
    rw [hdrop] at hsplit
    simp only [List.map_nil, List.flatten_nil, List.append_nil] at hsplit
    rw [hsplit]
  | cons t2 rest =>
    right
    have hmd : t2 ∈ (SplitPreserveWS.tokens s).drop (i + 1) := by
      rw [hdrop]
      exact List.mem_cons_self t2 rest
    have ht2mem : t2 ∈ SplitPreserveWS.tokens s := List.mem_of_mem_drop hmd
    obtain ⟨hne2, hhom2⟩ := tokens_mem ht2mem
    obtain ⟨d, ds, hdds⟩ : ∃ d ds, t2.text = d :: ds := by
      cases h2 : t2.text with
      | nil => exact absurd h2 hne2
      | cons d ds => exact ⟨d, ds, rfl⟩
    have hget := append_getElem_len hsplit
    refine ⟨d, ?_, ?_⟩
    · rw [hget, hdrop]
      simp [hdds]
    · have hdclass : isWS d = t2.classWS :=
        homog_chars hhom2 (by rw [hdds]; exact List.mem_cons_self d ds)
      have ht2q : (SplitPreserveWS.tokens s)[i + 1]? = some t2 := by
        have h0 := List.getElem?_drop (SplitPreserveWS.tokens s) (i + 1) 0
        rw [hdrop] at h0
        simpa using h0.symm
      obtain ⟨hi, hti⟩ := List.getElem?_eq_some.mp ht
      obtain ⟨hi2, hti2⟩ := List.getElem?_eq_some.mp ht2q
      have hchain := tokens_alt s
      rw [List.chain'_iff_get] at hchain
      have hneq := hchain i (by omega)
      rw [List.get_eq_getElem, List.get_eq_getElem] at hneq
      rw [hdclass]
      intro hcontra
      exact hneq (by rw [hti, hti2, hcontra])

theorem C4_maximality_witness :
    (((SplitPreserveWS.tokens "a ".toList).take (0 + 1)).map Token.text).flatten.length
        = "a ".toList.length ∨
    ∃ c, ("a ".toList)[(((SplitPreserveWS.tokens "a ".toList).take (0 + 1)).map
        Token.text).flatten.length]? = some c ∧ isWS c ≠ (Token.Other ['a']).classWS :=
  C4_maximality "a ".toList 0 (Token.Other ['a']) (by decide)

/-- C7: map_words keeps every Whitespace token's text unchanged at its position
and map_whitespace keeps every Other token's text unchanged; both produce exactly
as many fragments as the underlying iterator produces tokens. -/
theorem C7_frame (f : List Char → List Char) (s : List Char) (i : Nat) (u : List Char) :
    (map_words f s).length = (SplitPreserveWS.tokens s).length ∧
    (map_whitespace f s).length = (SplitPreserveWS.tokens s).length ∧
    ((SplitPreserveWS.tokens s)[i]? = some (Token.Whitespace u) →
      (map_words f s)[i]? = some u) ∧
    ((SplitPreserveWS.tokens s)[i]? = some (Token.Other u) →
      (map_whitespace f s)[i]? = some u) := by
  refine ⟨by simp [map_words], by simp [map_whitespace], ?_, ?_⟩
  · intro h
    rw [map_words, List.getElem?_map, h]
    rfl
  · intro h
    rw [map_whitespace, List.getElem?_map, h]
    rfl

theorem C7_frame_witness :
    (map_words List.reverse "a ".toList).length
        = (SplitPreserveWS.tokens "a ".toList).length ∧
    (map_whitespace List.reverse "a ".toList).length
        = (SplitPreserveWS.tokens "a ".toList).length ∧
    (map_words List.reverse "a ".toList)[1]? = some [' '] ∧
    (map_whitespace List.reverse "a ".toList)[0]? = some ['a'] := by
  have h1 := C7_frame List.reverse "a ".toList 1 [' ']
  have h2 := C7_frame List.reverse "a ".toList 0 ['a']
  exact ⟨h1.1, h1.2.1, h1.2.2.1 (by decide), h2.2.2.2 (by decide)⟩

/-- C8: the iterator emits at most one token per input character, and every next
call on a reachable unexhausted state strictly shrinks the pending text, so
iteration terminates. -/
theorem C8_termination (s : List Char) (it : SplitPreserveWS) (tok : Token)
    (rest : SplitPreserveWS) (hwf : it.WF = true)
    (hnext : it.next = (some tok, rest)) :
    (SplitPreserveWS.tokens s).length ≤ s.length ∧
    rest.text.length < it.text.length := by
  constructor
  · have h := @run_len s.length (SplitPreserveWS.new s) (new_WF s)
    rw [new_text] at h
    exact h
  · cases hst : it.string with
    | none =>
      rw [next_of_none hst] at hnext
      simp at hnext
    | some u =>
      obtain ⟨tok2, rest2, hnext2, _, _, _, _, _, hlt, _⟩ := next_spec hwf hst
      rw [hnext] at hnext2
      have hr : rest = rest2 := congrArg Prod.snd hnext2
      rw [hr, text_eq_of_string hst]
      exact hlt

theorem C8_termination_witness :
    (SplitPreserveWS.tokens "a ".toList).length ≤ "a ".toList.length ∧
    (SplitPreserveWS.mk (some (Token.Whitespace [' ']))).text.length <
      (SplitPreserveWS.mk (some (Token.Other ['a', ' ']))).text.length :=
  C8_termination "a ".toList ⟨some (Token.Other ['a', ' '])⟩ (Token.Other ['a'])
    ⟨some (Token.Whitespace [' '])⟩ (by decide) (by decide)

/-- C9: the concrete scenarios: "aa  " splits into Other "aa" then
Whitespace "  "; "   " splits into the single token Whitespace "   "; and
map_words reversing each word over "Line\twith\nweird whitespace" concatenates
to "eniL\thtiw\ndriew ecapsetihw". -/
theorem C9_scenarios :
    SplitPreserveWS.tokens "aa  ".toList
        = [Token.Other "aa".toList, Token.Whitespace "  ".toList] ∧
    SplitPreserveWS.tokens "   ".toList = [Token.Whitespace "   ".toList] ∧
    (map_words List.reverse "Line\twith\nweird whitespace".toList).flatten
        = "eniL\thtiw\ndriew ecapsetihw".toList :=
  ⟨by decide, by decide, by decide⟩

/-- C10: every emitted token carries non-empty text, and exhaustion is permanent:
next signals none only from the exhausted state, and the exhausted state steps to
itself, so every later call also signals none. -/
theorem C10_invariants (s : List Char) (t : Token) (it : SplitPreserveWS)
    (ht : t ∈ SplitPreserveWS.tokens s) :
    t.text ≠ [] ∧
    (it.next.1 = none → it.string = none) ∧
    SplitPreserveWS.next ⟨none⟩ = (none, ⟨none⟩) := by
  refine ⟨(tokens_mem ht).1, ?_, rfl⟩
  intro h
  cases hst : it.string with
  | none => rfl
  | some u =>
    exfalso
    cases u with
    | Whitespace w =>
      simp only [SplitPreserveWS.next, hst] at h
      cases hfs : findSplit (fun c => !isWS c) w with
      | some ab =>
        obtain ⟨a, b⟩ := ab
        rw [hfs] at h
        simp at h
      | none =>
        rw [hfs] at h
        simp at h
    | Other w =>
      simp only [SplitPreserveWS.next, hst] at h
      cases hfs : findSplit isWS w with
      | some ab =>
        obtain ⟨a, b⟩ := ab
        rw [hfs] at h
        simp at h
      | none =>
        rw [hfs] at h
        simp at h

theorem C10_invariants_witness :
    (Token.Other ['a']).text ≠ [] ∧
    ((SplitPreserveWS.mk none).next.1 = none → (SplitPreserveWS.mk none).string = none) ∧
    SplitPreserveWS.next ⟨none⟩ = (none, ⟨none⟩) :=
  C10_invariants "a ".toList (Token.Other ['a']) ⟨none⟩ (by decide)
